import Mathlib

/-!
Verification development for the Labyrinth pathfinding engine.

The Python source is shallowly embedded: cells are pairs of integers,
the occupancy grid is a structure holding a list-of-lists boolean field,
Python dicts are association lists, floating-point costs are modelled as
exact integers in units of 1/1000 (the only cost constants are 1.0 and
0.001, so every cost and priority the program manipulates is an integral
number of thousandths), and the unbounded while-loops are modelled with
an explicit fuel parameter (`none` = fuel exhausted, never reachable for
sufficient fuel, see the termination theorems).
-/

namespace Labyrinth

/-- Cell is a pair (row, column) of integers, as in `grid/base.py`. -/
abbrev Cell := Int × Int

/-! ## Association lists: the embedding of Python `dict`

Lookup finds the first matching key; insertion overwrites in place when
the key is present and appends otherwise, mirroring Python dict
semantics (keys are never duplicated). -/

/-- Lookup of a key in an association list (Python `d[k]` / `k in d`). -/
def alookup {α : Type} : List (Cell × α) → Cell → Option α
  | [], _ => none
  | (k, v) :: rest, key => if k = key then some v else alookup rest key

/-- Membership of a key (Python `k in d`). -/
def acontains {α : Type} (l : List (Cell × α)) (key : Cell) : Bool :=
  (alookup l key).isSome

/-- Insertion (Python `d[k] = v`): overwrite in place or append. -/
def ainsert {α : Type} : List (Cell × α) → Cell → α → List (Cell × α)
  | [], key, v => [(key, v)]
  | (k, w) :: rest, key, v =>
    if k = key then (k, v) :: rest else (k, w) :: ainsert rest key v

/-- Keys of an association list, in order. -/
def akeys {α : Type} (l : List (Cell × α)) : List Cell := l.map (·.1)

/-! ## GridMatrix (`grid/matrix.py`) -/

/-- Occupancy grid: `true` = occupied/wall, `false` = free.
The boolean field mirrors Python's list-of-lists `_cells`. -/
structure GridMatrix where
  rows : Int
  columns : Int
  cells : List (List Bool)
deriving Repr, DecidableEq

/-- Build the `rows x columns` comprehension `[[f j i for i ...] for j ...]`. -/
def buildCells (rows columns : Nat) (f : Nat → Nat → Bool) : List (List Bool) :=
  (List.range rows).map (fun j => (List.range columns).map (fun i => f j i))

/-- Read `cells[x][y]` (all Python accesses are guarded by a bounds check,
so the out-of-range default is never consulted on well-formed grids). -/
def cellsGet (cells : List (List Bool)) (x y : Nat) : Bool :=
  ((cells.getD x []).getD y false)

/-- Write `cells[x][y] = v`. -/
def cellsSet (cells : List (List Bool)) (x y : Nat) (v : Bool) : List (List Bool) :=
  cells.set x ((cells.getD x []).set y v)

/-- Constructor `GridMatrix(rows, columns, preset)`. -/
def mkGridMatrix (rows columns : Int) (preset : Bool) : GridMatrix :=
  ⟨rows, columns, buildCells rows.toNat columns.toNat (fun _ _ => preset)⟩

/-- Class attribute `MIN_ROWS`. -/
def MIN_ROWS : Int := 10

/-- Class attribute `MIN_COLUMNS`. -/
def MIN_COLUMNS : Int := 10

namespace GridMatrix

/-- Method `in_bounds`: `0 <= x < rows and 0 <= y < columns`. -/
def in_bounds (g : GridMatrix) (cell : Cell) : Bool :=
  decide (0 ≤ cell.1) && decide (cell.1 < g.rows) &&
    decide (0 ≤ cell.2) && decide (cell.2 < g.columns)

/-- Method `is_on_grid`: same bounds check as `in_bounds`. -/
def is_on_grid (g : GridMatrix) (node : Cell) : Bool :=
  decide (0 ≤ node.1) && decide (node.1 < g.rows) &&
    decide (0 ≤ node.2) && decide (node.2 < g.columns)

/-- Method `get_cell`: bounds-checked read; out of bounds gives `False`. -/
def get_cell (g : GridMatrix) (cell : Cell) : Bool :=
  if g.in_bounds cell then cellsGet g.cells cell.1.toNat cell.2.toNat
  else false

/-- Method `neighbors`: the four axis candidates, reversed on even
`(x+y)` parity, filtered to in-bounds and free cells. -/
def neighbors (g : GridMatrix) (cell : Cell) : List Cell :=
  let x := cell.1
  let y := cell.2
  let nbrs : List Cell := [(x + 1, y), (x - 1, y), (x, y - 1), (x, y + 1)]
  let nbrs := if (x + y) % 2 = 0 then nbrs.reverse else nbrs
  (nbrs.filter (g.in_bounds ·)).filter (fun c => !(g.get_cell c))

/-- Method `try_resize`: mutation is modelled by returning the success
flag together with the updated grid. -/
def try_resize (g : GridMatrix) (rows columns : Int) : Bool × GridMatrix :=
  if rows ≥ MIN_ROWS ∧ columns ≥ MIN_COLUMNS then
    (true,
      ⟨rows, columns,
        buildCells rows.toNat columns.toNat (fun j i =>
          if j < g.rows.toNat ∧ i < g.columns.toNat then cellsGet g.cells j i
          else false)⟩)
  else (false, g)

/-- Method `try_set_cell`: bounds-checked write of `True`. -/
def try_set_cell (g : GridMatrix) (cell : Cell) : Bool × GridMatrix :=
  if g.in_bounds cell then
    (true, ⟨g.rows, g.columns, cellsSet g.cells cell.1.toNat cell.2.toNat true⟩)
  else (false, g)

/-- Method `try_reset_cell`: bounds-checked write of `False`. -/
def try_reset_cell (g : GridMatrix) (cell : Cell) : Bool × GridMatrix :=
  if g.in_bounds cell then
    (true, ⟨g.rows, g.columns, cellsSet g.cells cell.1.toNat cell.2.toNat false⟩)
  else (false, g)

end GridMatrix

/-! ## Cost and heuristic (`algorithms/base.py`, `algorithms/astar.py`)

Costs are in units of 1/1000: the Python `1` is `1000` and the nudge
`0.001` is `1`; the Manhattan heuristic is scaled by the same factor. -/

/-- Static method `PathFindingAlgorithm._get_cost`, in milli-units. -/
def get_cost (from_node to_node : Cell) : Nat :=
  let x1 := from_node.1
  let y1 := from_node.2
  let x2 := to_node.1
  let y2 := to_node.2
  let nudge : Nat := if (x1 + y1) % 2 = 0 ∧ x2 ≠ x1 then 1 else 0
  let nudge : Nat := if (x1 + y1) % 2 = 1 ∧ y2 ≠ y1 then 1 else nudge
  1000 + nudge

/-- Static method `AStarAlgorithm._heuristic` (Manhattan distance), in
milli-units. -/
def heuristic (a b : Cell) : Nat :=
  1000 * ((a.1 - b.1).natAbs + (a.2 - b.2).natAbs)

/-! ## Path reconstruction (`algorithms/base.py`) -/

/-- Predecessor map: Python dict from cell to optional predecessor. -/
abbrev CameFrom := List (Cell × Option Cell)

/-- Cost map: Python dict from cell to accumulated milli-cost. -/
abbrev CostMap := List (Cell × Nat)

/-- Backward walk of `reconstruct_path`, accumulating the reversed path.
The Python `while` loop diverges or raises on a malformed map; the fuel
and the `none` results model that, and are irrelevant for maps produced
by the algorithms. -/
def reconstruct_walk (came_from : CameFrom) (source : Cell) :
    Nat → Cell → List Cell → Option (List Cell)
  | 0, _, _ => none
  | fuel + 1, current, acc =>
    if current = source then some (source :: acc)
    else
      match alookup came_from current with
      | some (some prev) => reconstruct_walk came_from source fuel prev (current :: acc)
      | _ => none

/-- Static method `PathFindingAlgorithm.reconstruct_path`. -/
def reconstruct_path (came_from : CameFrom) (source target : Cell) :
    Option (List Cell) :=
  if acontains came_from target then
    reconstruct_walk came_from source (came_from.length + 1) target []
  else some []

/-! ## SolveStep (`algorithms/base.py`)

Python stores `used` as a set; the model keeps the insertion-ordered
list of its elements, and theorems speak about membership only. -/

/-- Trace element `SolveStep`. -/
structure SolveStep where
  selected : Cell
  used : List Cell
  path : CameFrom
deriving Repr, DecidableEq

/-! ## BFS (`algorithms/bfs.py`)

The FIFO frontier is a list with `put` = append and `get` = head.  Both
loops are instrumented with the (ghost) list of popped cells, used by
the trace-equivalence statements. -/

/-- Inner `for next_node in grid.neighbors(current)` loop of
`BfsAlgorithm.solve`. -/
def bfs_expand (current : Cell) :
    List Cell → List Cell → CameFrom → List Cell × CameFrom
  | [], frontier, cf => (frontier, cf)
  | n :: ns, frontier, cf =>
    if acontains cf n then bfs_expand current ns frontier cf
    else bfs_expand current ns (frontier ++ [n]) (ainsert cf n (some current))

/-- Main `while` loop of `BfsAlgorithm.solve`. -/
def bfs_loop (g : GridMatrix) (target : Cell) :
    Nat → List Cell → CameFrom → List Cell → Option (List Cell × CameFrom)
  | 0, _, _, _ => none
  | fuel + 1, frontier, cf, pops =>
    match frontier with
    | [] => some (pops.reverse, cf)
    | current :: rest =>
      if current = target then some ((current :: pops).reverse, cf)
      else
        let s := bfs_expand current (g.neighbors current) rest cf
        bfs_loop g target fuel s.1 s.2 (current :: pops)

/-- Run of `BfsAlgorithm.solve` up to path reconstruction: the frontier
starts as `[source]` and `came_from[source] = None`. -/
def bfs_run (g : GridMatrix) (source target : Cell) (fuel : Nat) :
    Option (List Cell × CameFrom) :=
  bfs_loop g target fuel [source] [(source, none)] []

/-- Method `BfsAlgorithm.solve`: the final reconstructed path. -/
def bfs_solve (g : GridMatrix) (source target : Cell) (fuel : Nat) :
    Option (Option (List Cell)) :=
  (bfs_run g source target fuel).map (fun r => reconstruct_path r.2 source target)

/-- Cells expanded (popped from the frontier) by `BfsAlgorithm.solve`. -/
def bfs_solve_pops (g : GridMatrix) (source target : Cell) (fuel : Nat) :
    Option (List Cell) :=
  (bfs_run g source target fuel).map (·.1)

/-- Inner neighbor loop of `BfsAlgorithm.get_solve_queue`: one step is
emitted per neighbor, before the containment check. -/
def bfs_trace_expand (current : Cell) :
    List Cell → List Cell → CameFrom → List Cell → List SolveStep →
      List Cell × CameFrom × List Cell × List SolveStep
  | [], frontier, cf, selected, steps => (frontier, cf, selected, steps)
  | n :: ns, frontier, cf, selected, steps =>
    let steps := steps ++ [⟨n, selected, cf⟩]
    if acontains cf n then bfs_trace_expand current ns frontier cf selected steps
    else
      bfs_trace_expand current ns (frontier ++ [n])
        (ainsert cf n (some current)) (selected ++ [n]) steps

/-- Main loop of `BfsAlgorithm.get_solve_queue`; `selected` is reset at
every pop. -/
def bfs_trace_loop (g : GridMatrix) (target : Cell) :
    Nat → List Cell → CameFrom → List Cell → List SolveStep →
      Option (List Cell × List SolveStep)
  | 0, _, _, _, _ => none
  | fuel + 1, frontier, cf, pops, steps =>
    match frontier with
    | [] => some (pops.reverse, steps)
    | current :: rest =>
      if current = target then some ((current :: pops).reverse, steps)
      else
        let s := bfs_trace_expand current (g.neighbors current) rest cf [] []
        bfs_trace_loop g target fuel s.1 s.2.1 (current :: pops) (steps ++ s.2.2.2)

/-- Run of `BfsAlgorithm.get_solve_queue`: popped cells and the emitted
steps. -/
def bfs_trace_run (g : GridMatrix) (source target : Cell) (fuel : Nat) :
    Option (List Cell × List SolveStep) :=
  bfs_trace_loop g target fuel [source] [(source, none)] [] []

/-- Cells expanded (popped) by `BfsAlgorithm.get_solve_queue`. -/
def bfs_trace_pops (g : GridMatrix) (source target : Cell) (fuel : Nat) :
    Option (List Cell) :=
  (bfs_trace_run g source target fuel).map (·.1)

/-! ## Priority queue (`queue.PriorityQueue` over `(priority, cell)`)

Python's `PriorityQueue` is a binary heap of `(priority, cell)` tuples
compared lexicographically; `get` removes the smallest tuple.  The
model keeps the multiset of entries as a list and extracts the minimum
under the same lexicographic order. -/

/-- Frontier entry `(priority, cell)` in milli-units. -/
abbrev Entry := Nat × Cell

/-- Python tuple order on cells: row first, then column. -/
def cellLe (a b : Cell) : Bool :=
  decide (a.1 < b.1) || (decide (a.1 = b.1) && decide (a.2 ≤ b.2))

/-- Python tuple order on `(priority, cell)` entries. -/
def entryLe (e f : Entry) : Bool :=
  decide (e.1 < f.1) || (decide (e.1 = f.1) && cellLe e.2 f.2)

/-- Extraction of the least entry (the behavior of `PriorityQueue.get`):
returns the minimum under `entryLe` and the remaining entries. -/
def popMin : List Entry → Option (Entry × List Entry)
  | [] => none
  | e :: es =>
    match popMin es with
    | none => some (e, [])
    | some (m, rest) =>
      if entryLe e m then some (e, es) else some (m, e :: rest)

/-- Repeated extraction with explicit fuel. -/
def popAllFuel : Nat → List Entry → List Entry
  | 0, _ => []
  | fuel + 1, l =>
    match popMin l with
    | none => []
    | some (e, rest) => e :: popAllFuel fuel rest

/-- Draining the queue by repeated `get`. -/
def popAll (l : List Entry) : List Entry := popAllFuel l.length l

/-- Ghost record of the queue traffic of one run. -/
inductive QEvent
  | push (priority : Nat) (cell : Cell)
  | pop (priority : Nat) (cell : Cell)
deriving Repr, DecidableEq

/-! ## A* (`algorithms/astar.py`)

A missing `cost_so_far[current]` key (Python `KeyError`) is modelled by
the `keyError` result; fuel exhaustion stays at the outer `Option`. -/

/-- Result of a fallible run: normal value or a raised `KeyError`. -/
inductive RunResult (α : Type)
  | ok (value : α)
  | keyError
deriving Repr, DecidableEq

/-- Functorial action on the normal result. -/
def RunResult.map {α β : Type} (f : α → β) : RunResult α → RunResult β
  | .ok a => .ok (f a)
  | .keyError => .keyError

/-- Inner neighbor loop of `AStarAlgorithm.solve`; `cost_so_far[current]`
is looked up per neighbor, exactly as in the source. -/
def astar_expand (target current : Cell) :
    List Cell → List Entry → CameFrom → CostMap → List QEvent →
      Option (List Entry × CameFrom × CostMap × List QEvent)
  | [], frontier, cf, csf, evts => some (frontier, cf, csf, evts)
  | n :: ns, frontier, cf, csf, evts =>
    match alookup csf current with
    | none => none
    | some c0 =>
      let new_cost := c0 + get_cost current n
      let improved :=
        match alookup csf n with
        | none => true
        | some old => decide (new_cost < old)
      if improved then
        let priority := new_cost + heuristic n target
        astar_expand target current ns (frontier ++ [(priority, n)])
          (ainsert cf n (some current)) (ainsert csf n new_cost)
          (evts ++ [.push priority n])
      else astar_expand target current ns frontier cf csf evts

/-- Main loop of `AStarAlgorithm.solve`, instrumented with the popped
cells and the queue events. -/
def astar_loop (g : GridMatrix) (target : Cell) :
    Nat → List Entry → CameFrom → CostMap → List Cell → List QEvent →
      Option (RunResult (List Cell × CameFrom × List QEvent))
  | 0, _, _, _, _, _ => none
  | fuel + 1, frontier, cf, csf, pops, evts =>
    match popMin frontier with
    | none => some (.ok (pops.reverse, cf, evts))
    | some ((p, current), rest) =>
      let evts := evts ++ [.pop p current]
      let pops := current :: pops
      if current = target then some (.ok (pops.reverse, cf, evts))
      else
        match astar_expand target current (g.neighbors current) rest cf csf evts with
        | none => some .keyError
        | some s => astar_loop g target fuel s.1 s.2.1 s.2.2.1 pops s.2.2.2

/-- Run of `AStarAlgorithm.solve` up to path reconstruction: the
frontier starts as `[(0, source)]`, `came_from[source] = None` and
`cost_so_far[source] = 0`. -/
def astar_run (g : GridMatrix) (source target : Cell) (fuel : Nat) :
    Option (RunResult (List Cell × CameFrom × List QEvent)) :=
  astar_loop g target fuel [(0, source)] [(source, none)] [(source, 0)] []
    [.push 0 source]

/-- Method `AStarAlgorithm.solve`: the final reconstructed path. -/
def astar_solve (g : GridMatrix) (source target : Cell) (fuel : Nat) :
    Option (RunResult (Option (List Cell))) :=
  (astar_run g source target fuel).map
    (RunResult.map (fun r => reconstruct_path r.2.1 source target))

/-- Cells expanded (popped) by `AStarAlgorithm.solve`. -/
def astar_solve_pops (g : GridMatrix) (source target : Cell) (fuel : Nat) :
    Option (RunResult (List Cell)) :=
  (astar_run g source target fuel).map (RunResult.map (·.1))

/-- Queue events of a run of `AStarAlgorithm.solve`. -/
def astar_events (g : GridMatrix) (source target : Cell) (fuel : Nat) :
    Option (RunResult (List QEvent)) :=
  (astar_run g source target fuel).map (RunResult.map (·.2.2))

/-- Inner neighbor loop of `AStarAlgorithm.get_solve_queue`: the step is
emitted after `new_cost` is computed, before the improvement check. -/
def astar_trace_expand (target current : Cell) :
    List Cell → List Entry → CameFrom → CostMap → List Cell → List SolveStep →
      Option (List Entry × CameFrom × CostMap × List Cell × List SolveStep)
  | [], frontier, cf, csf, selected, steps => some (frontier, cf, csf, selected, steps)
  | n :: ns, frontier, cf, csf, selected, steps =>
    match alookup csf current with
    | none => none
    | some c0 =>
      let new_cost := c0 + get_cost current n
      let steps := steps ++ [⟨n, selected, cf⟩]
      let improved :=
        match alookup csf n with
        | none => true
        | some old => decide (new_cost < old)
      if improved then
        let priority := new_cost + heuristic n target
        astar_trace_expand target current ns (frontier ++ [(priority, n)])
          (ainsert cf n (some current)) (ainsert csf n new_cost)
          (selected ++ [n]) steps
      else astar_trace_expand target current ns frontier cf csf selected steps

/-- Main loop of `AStarAlgorithm.get_solve_queue`; `selected` is reset
at every pop. -/
def astar_trace_loop (g : GridMatrix) (target : Cell) :
    Nat → List Entry → CameFrom → CostMap → List Cell → List SolveStep →
      Option (RunResult (List Cell × List SolveStep))
  | 0, _, _, _, _, _ => none
  | fuel + 1, frontier, cf, csf, pops, steps =>
    match popMin frontier with
    | none => some (.ok (pops.reverse, steps))
    | some ((_, current), rest) =>
      let pops := current :: pops
      if current = target then some (.ok (pops.reverse, steps))
      else
        match astar_trace_expand target current (g.neighbors current) rest cf csf [] [] with
        | none => some .keyError
        | some s =>
          astar_trace_loop g target fuel s.1 s.2.1 s.2.2.1 pops (steps ++ s.2.2.2.2)

/-- Run of `AStarAlgorithm.get_solve_queue`. -/
def astar_trace_run (g : GridMatrix) (source target : Cell) (fuel : Nat) :
    Option (RunResult (List Cell × List SolveStep)) :=
  astar_trace_loop g target fuel [(0, source)] [(source, none)] [(source, 0)] [] []

/-- Cells expanded (popped) by `AStarAlgorithm.get_solve_queue`. -/
def astar_trace_pops (g : GridMatrix) (source target : Cell) (fuel : Nat) :
    Option (RunResult (List Cell)) :=
  (astar_trace_run g source target fuel).map (RunResult.map (·.1))

/-! ## Maze generator (`grid/generator.py`)

Every call of Python's `randint` consumes one value from an explicit
oracle list (exhausted oracle yields 0), so a run of the generator is a
function of the dimensions and the oracle. -/

/-- Python `range(a, b)` over integers. -/
def intRange (a b : Int) : List Int :=
  (List.range (b - a).toNat).map (fun k => a + Int.ofNat k)

/-- Python `randint(a, b)` driven by one oracle value. -/
def randint (a b : Int) (v : Nat) : Int :=
  a + Int.ofNat (v % (b - a + 1).toNat)

/-- Taking the next oracle value. -/
def drawOracle : List Nat → Nat × List Nat
  | [] => (0, [])
  | v :: vs => (v, vs)

namespace DfsMazeGenerator

/-- Static method `is_not_corner`. -/
def is_not_corner (node : Cell) (x y : Int) : Bool :=
  decide (node.1 = x) || decide (node.2 = y)

/-- Static method `is_not_node`. -/
def is_not_node (node : Cell) (x y : Int) : Bool :=
  decide (node.1 ≠ x) || decide (node.2 ≠ y)

/-- Class method `_find_neighbors`: the two nested `range(-2, 3, 2)`
loops, outer `dy`, inner `dx`. -/
def find_neighbors (m : GridMatrix) (node : Cell) : List Cell :=
  ([-2, 0, 2] : List Int).flatMap (fun dy =>
    ([-2, 0, 2] : List Int).filterMap (fun dx =>
      let nx := node.1 + dx
      let ny := node.2 + dy
      if m.is_on_grid (nx, ny) && is_not_corner (nx, ny) node.1 node.2 &&
          is_not_node (nx, ny) node.1 node.2 then
        some (nx, ny)
      else none))

/-- Clearing one discovered neighbor and the wall cell between it and
the current cell (the `(cy + ny) // 2` midpoints are exact since both
coordinates share parity). -/
def carve_step (current neighbor : Cell) (m : GridMatrix) : GridMatrix :=
  let m := (m.try_reset_cell neighbor).2
  if neighbor.1 = current.1 then
    (m.try_reset_cell (current.1, (current.2 + neighbor.2) / 2)).2
  else if neighbor.2 = current.2 then
    (m.try_reset_cell ((current.1 + neighbor.1) / 2, current.2)).2
  else m

/-- Inner `for i, neighbor in enumerate(neighbors)` loop: every
discovered neighbor is cleared, marked visited and carved to, and all
but the randomly chosen index are pushed.  The stack has its top at the
list head (Python appends and pops at the end). -/
def carve_neighbors (current : Cell) :
    List Cell → Nat → Nat → GridMatrix → List Cell → List Cell →
      GridMatrix × List Cell × List Cell
  | [], _, _, m, visited, stack => (m, visited, stack)
  | n :: ns, i, ri, m, visited, stack =>
    let m := carve_step current n m
    let visited := n :: visited
    let stack := if i ≠ ri then n :: stack else stack
    carve_neighbors current ns (i + 1) ri m visited stack

/-- Main `while path_stack` loop of `DfsMazeGenerator.generate`. -/
def maze_loop :
    Nat → GridMatrix → List Cell → List Cell → List Nat → Option GridMatrix
  | 0, _, _, _, _ => none
  | fuel + 1, m, stack, visited, oracle =>
    match stack with
    | [] => some m
    | current :: stackRest =>
      let nbrs := (find_neighbors m current).filter (fun n => !(visited.contains n))
      match nbrs with
      | [] => maze_loop fuel m stackRest visited oracle
      | _ =>
        let od := drawOracle oracle
        let ri := (randint 0 (Int.ofNat nbrs.length - 1) od.1).toNat
        let s := carve_neighbors current nbrs 0 ri m visited stackRest
        let chosen := nbrs.getD ri ((0, 0) : Cell)
        maze_loop fuel s.1 (chosen :: s.2.2) s.2.1 od.2

/-- Class method `DfsMazeGenerator.generate`: all-occupied grid,
trailing rows/columns beyond the odd boundary cleared, then the DFS
carve from a random even start. -/
def generate (rows columns : Int) (oracle : List Nat) (fuel : Nat) :
    Option GridMatrix :=
  let result := mkGridMatrix rows columns true
  let result :=
    (intRange ((rows - 1).fdiv 2 * 2 + 1) rows).foldl
      (fun acc x =>
        (intRange 0 columns).foldl (fun a y => (a.try_reset_cell (x, y)).2) acc)
      result
  let result :=
    (intRange ((columns - 1).fdiv 2 * 2 + 1) columns).foldl
      (fun acc y =>
        (intRange 0 rows).foldl (fun a x => (a.try_reset_cell (x, y)).2) acc)
      result
  let od0 := drawOracle oracle
  let start_x := randint 0 ((rows - 1).fdiv 2) od0.1 * 2
  let od1 := drawOracle od0.2
  let start_y := randint 0 ((columns - 1).fdiv 2) od1.1 * 2
  maze_loop fuel result [(start_x, start_y)] [(start_x, start_y)] od1.2

end DfsMazeGenerator

/-! ## Free-cell reachability checker (used to state maze properties) -/

/-- Free 4-neighbors of a cell. -/
def free_adjacent (m : GridMatrix) (c : Cell) : List Cell :=
  ([(c.1 + 1, c.2), (c.1 - 1, c.2), (c.1, c.2 - 1), (c.1, c.2 + 1)] : List Cell).filter
    (fun d => m.in_bounds d && !(m.get_cell d))

/-- Fueled closure of free-cell reachability from a seed set. -/
def free_reach (m : GridMatrix) : Nat → List Cell → List Cell
  | 0, acc => acc
  | fuel + 1, acc =>
    let next := (acc.flatMap (free_adjacent m)).filter (fun c => !(acc.contains c))
    match next with
    | [] => acc
    | _ => free_reach m fuel (acc ++ next)

/-! ## Statement vocabulary

Definitions used only to phrase the theorems, not taken from the
source. -/

/-- Direction name of the specification: `east` steps the first
coordinate up (the spec names the positive direction of the coordinate
checked against `rows` "east"). -/
def eastOf (c : Cell) : Cell := (c.1 + 1, c.2)

/-- Direction name of the specification: `west` steps the first
coordinate down. -/
def westOf (c : Cell) : Cell := (c.1 - 1, c.2)

/-- Direction name of the specification: `north` steps the second
coordinate down. -/
def northOf (c : Cell) : Cell := (c.1, c.2 - 1)

/-- Direction name of the specification: `south` steps the second
coordinate up. -/
def southOf (c : Cell) : Cell := (c.1, c.2 + 1)

/-- Amended trace description for BFS: scanning the examined neighbors
in order, the ones newly enqueued (absent from the growing predecessor
map at their turn). -/
def newly_enqueued (current : Cell) : CameFrom → List Cell → List Cell
  | _, [] => []
  | cf, n :: ns =>
    if acontains cf n then newly_enqueued current cf ns
    else n :: newly_enqueued current (ainsert cf n (some current)) ns

/-- All in-bounds cells of a grid, used to bound map sizes in the
termination arguments. -/
def allCells (g : GridMatrix) : List Cell :=
  (List.range g.rows.toNat).flatMap (fun x =>
    (List.range g.columns.toNat).map (fun y => (Int.ofNat x, Int.ofNat y)))

/-- Sum of the recorded milli-costs, the potential of the termination
measure. -/
def asum (l : CostMap) : Nat := (l.map (·.2)).sum

/-- Closed form of the steps one BFS trace expansion emits, used to
characterize `bfs_trace_expand`. -/
def trace_steps_from (current : Cell) : CameFrom → List Cell → List Cell → List SolveStep
  | _, _, [] => []
  | cf, selected, n :: ns =>
    ⟨n, selected, cf⟩ ::
      (if acontains cf n then trace_steps_from current cf selected ns
      else trace_steps_from current (ainsert cf n (some current)) (selected ++ [n]) ns)

/-! ## Association list lemmas -/

theorem alookup_ainsert_self {α : Type} (l : List (Cell × α)) (k : Cell) (v : α) :
    alookup (ainsert l k v) k = some v := by
  induction l with
  | nil => simp [ainsert, alookup]
  | cons p rest ih =>
    by_cases h : p.1 = k
    · simp [ainsert, alookup, h]
    · simp [ainsert, alookup, h, ih]

theorem alookup_ainsert_of_ne {α : Type} (l : List (Cell × α)) (k k2 : Cell)
    (v : α) (h : k ≠ k2) : alookup (ainsert l k v) k2 = alookup l k2 := by
  induction l with
  | nil => simp [ainsert, alookup, h]
  | cons p rest ih =>
    by_cases hp : p.1 = k
    · simp [ainsert, alookup, hp, h]
    · by_cases hp2 : p.1 = k2
      · simp [ainsert, alookup, hp, hp2, Ne.symm h]
      · simp [ainsert, alookup, hp, hp2, ih]

theorem acontains_ainsert {α : Type} (l : List (Cell × α)) (k k2 : Cell) (v : α) :
    acontains (ainsert l k v) k2 = (decide (k = k2) || acontains l k2) := by
  by_cases h : k = k2
  · subst h
    simp [acontains, alookup_ainsert_self]
  · simp [acontains, alookup_ainsert_of_ne l k k2 v h, h]

theorem length_ainsert_of_contains {α : Type} (l : List (Cell × α)) (k : Cell)
    (v : α) (h : acontains l k = true) : (ainsert l k v).length = l.length := by
  induction l with
  | nil => simp [acontains, alookup] at h
  | cons p rest ih =>
    by_cases hp : p.1 = k
    · simp [ainsert, hp]
    · simp only [acontains, alookup, hp, if_false] at h
      simp [ainsert, hp, ih h]

theorem length_ainsert_of_not_contains {α : Type} (l : List (Cell × α)) (k : Cell)
    (v : α) (h : acontains l k = false) :
    (ainsert l k v).length = l.length + 1 := by
  induction l with
  | nil => simp [ainsert]
  | cons p rest ih =>
    by_cases hp : p.1 = k
    · simp [acontains, alookup, hp] at h
    · simp only [acontains, alookup, hp, if_false] at h
      simp [ainsert, hp, ih h]

theorem mem_akeys_iff {α : Type} (l : List (Cell × α)) (k : Cell) :
    k ∈ akeys l ↔ acontains l k = true := by
  induction l with
  | nil => simp [akeys, acontains, alookup]
  | cons p rest ih =>
    by_cases hp : p.1 = k
    · simp [akeys, acontains, alookup, hp]
    · simp only [akeys, List.map_cons, List.mem_cons]
      simp only [akeys] at ih
      simp [acontains, alookup, hp, ih, Ne.symm hp]

theorem akeys_ainsert_of_contains {α : Type} (l : List (Cell × α)) (k : Cell)
    (v : α) (h : acontains l k = true) : akeys (ainsert l k v) = akeys l := by
  induction l with
  | nil => simp [acontains, alookup] at h
  | cons p rest ih =>
    by_cases hp : p.1 = k
    · simp [ainsert, akeys, hp]
    · simp only [acontains, alookup, hp, if_false] at h
      have ih2 := ih h
      simp only [akeys] at ih2
      simp [ainsert, akeys, hp, ih2]

theorem akeys_ainsert_of_not_contains {α : Type} (l : List (Cell × α)) (k : Cell)
    (v : α) (h : acontains l k = false) :
    akeys (ainsert l k v) = akeys l ++ [k] := by
  induction l with
  | nil => simp [ainsert, akeys]
  | cons p rest ih =>
    by_cases hp : p.1 = k
    · simp [acontains, alookup, hp] at h
    · simp only [acontains, alookup, hp, if_false] at h
      have ih2 := ih h
      simp only [akeys] at ih2
      simp [ainsert, akeys, hp, ih2]

theorem nodup_akeys_ainsert {α : Type} (l : List (Cell × α)) (k : Cell) (v : α)
    (h : (akeys l).Nodup) : (akeys (ainsert l k v)).Nodup := by
  by_cases hc : acontains l k = true
  · rw [akeys_ainsert_of_contains l k v hc]
    exact h
  · rw [akeys_ainsert_of_not_contains l k v (by simpa using hc)]
    rw [List.nodup_append]
    refine ⟨h, List.nodup_singleton k, ?_⟩
    intro a ha hb
    simp at hb
    subst hb
    rw [mem_akeys_iff] at ha
    exact hc ha

/-! ## Grid lemmas -/

theorem cellsGet_buildCells (rows cols : Nat) (f : Nat → Nat → Bool)
    (x y : Nat) (hx : x < rows) (hy : y < cols) :
    cellsGet (buildCells rows cols f) x y = f x y := by
  have h1 : (buildCells rows cols f).getD x [] =
      (List.range cols).map (fun i => f x i) := by
    unfold buildCells
    rw [List.getD_eq_getElem?_getD, List.getElem?_map, List.getElem?_range hx]
    simp
  unfold cellsGet
  rw [h1, List.getD_eq_getElem?_getD, List.getElem?_map, List.getElem?_range hy]
  simp

/-! ## C2: out-of-bounds reads and writes -/

/-- C2 counterexample: the claim states that an out-of-bounds occupancy
read returns `true` (wall), but on a 10x10 grid the out-of-bounds cell
`(10, 0)` reads `false` (free). -/
theorem C2_oob_read_counterexample :
    (mkGridMatrix 10 10 false).in_bounds (10, 0) = false ∧
      ((mkGridMatrix 10 10 true).in_bounds (10, 0) = false ∧
        (mkGridMatrix 10 10 true).get_cell (10, 0) = false) := by
  constructor
  · rfl
  · constructor
    · rfl
    · rfl

/-- C2 (amended): for every grid and every out-of-bounds cell, the
occupancy read `get_cell` returns `false` (free) rather than failing,
while the writes `try_set_cell` and `try_reset_cell` leave the grid
unchanged and return `false`. -/
theorem C2_oob_amended (g : GridMatrix) (c : Cell)
    (h : g.in_bounds c = false) :
    g.get_cell c = false ∧ g.try_set_cell c = (false, g) ∧
      g.try_reset_cell c = (false, g) := by
  unfold GridMatrix.get_cell GridMatrix.try_set_cell GridMatrix.try_reset_cell
  simp [h]

/-- C2 witness: the amended statement applied to the out-of-bounds cell
`(-1, 3)` of a 10x10 grid. -/
theorem C2_oob_amended_witness :
    (mkGridMatrix 10 10 false).in_bounds (-1, 3) = false ∧
      ((mkGridMatrix 10 10 false).get_cell (-1, 3) = false ∧
        (mkGridMatrix 10 10 false).try_set_cell (-1, 3) =
          (false, mkGridMatrix 10 10 false) ∧
        (mkGridMatrix 10 10 false).try_reset_cell (-1, 3) =
          (false, mkGridMatrix 10 10 false)) :=
  ⟨by rfl, C2_oob_amended (mkGridMatrix 10 10 false) (-1, 3) (by rfl)⟩

/-! ## C4: neighbor enumeration order -/

/-- C4: `neighbors` generates the four candidates in the order
`[east, west, north, south]`, reverses the list when `(row + col)` is
even, i.e. returns candidate order `[south, north, west, east]` for
even parity and `[east, west, north, south]` for odd parity, and then
filters to in-bounds, free (non-occupied) cells. -/
theorem C4_neighbors_order (g : GridMatrix) (c : Cell) :
    g.neighbors c =
      (if (c.1 + c.2) % 2 = 0 then
        [southOf c, northOf c, westOf c, eastOf c]
      else
        [eastOf c, westOf c, northOf c, southOf c]).filter
        (fun d => g.in_bounds d && !(g.get_cell d)) := by
  unfold GridMatrix.neighbors eastOf westOf northOf southOf
  by_cases h : (c.1 + c.2) % 2 = 0 <;>
    simp [h, List.filter_filter, Bool.and_comm]

/-! ## C7: resize -/

theorem in_bounds_iff (g : GridMatrix) (c : Cell) :
    g.in_bounds c = true ↔
      0 ≤ c.1 ∧ c.1 < g.rows ∧ 0 ≤ c.2 ∧ c.2 < g.columns := by
  simp [GridMatrix.in_bounds, and_assoc]

/-- C7: `try_resize` rejects (returns `false`, grid unchanged) unless
both dimensions are at least 10; otherwise it returns `true`, sets the
dimensions, preserves every cell of the overlapping sub-rectangle and
sets every new cell outside the old bounds to free. -/
theorem C7_try_resize (g : GridMatrix) (rows columns : Int) :
    (¬(rows ≥ 10 ∧ columns ≥ 10) → g.try_resize rows columns = (false, g)) ∧
    (rows ≥ 10 → columns ≥ 10 →
      (g.try_resize rows columns).1 = true ∧
      (g.try_resize rows columns).2.rows = rows ∧
      (g.try_resize rows columns).2.columns = columns ∧
      (∀ c : Cell, g.in_bounds c = true →
        (g.try_resize rows columns).2.in_bounds c = true →
        (g.try_resize rows columns).2.get_cell c = g.get_cell c) ∧
      (∀ c : Cell, (g.try_resize rows columns).2.in_bounds c = true →
        g.in_bounds c = false →
        (g.try_resize rows columns).2.get_cell c = false)) := by
  constructor
  · intro h
    simp only [GridMatrix.try_resize, MIN_ROWS, MIN_COLUMNS, if_neg h]
  · intro hr hc
    have hcond : rows ≥ MIN_ROWS ∧ columns ≥ MIN_COLUMNS := ⟨hr, hc⟩
    simp only [GridMatrix.try_resize, if_pos hcond]
    refine ⟨trivial, trivial, trivial, ?_, ?_⟩
    · intro c hold hnew
      have holdP := (in_bounds_iff g c).mp hold
      have hnewP := (in_bounds_iff _ c).mp hnew
      simp only at hnewP
      simp only [GridMatrix.get_cell, hnew, hold, if_true]
      rw [cellsGet_buildCells _ _ _ _ _ (by omega) (by omega)]
      rw [if_pos (by omega : c.1.toNat < g.rows.toNat ∧ c.2.toNat < g.columns.toNat)]
    · intro c hnew hold
      have hnewP := (in_bounds_iff _ c).mp hnew
      simp only at hnewP
      have holdP : ¬(0 ≤ c.1 ∧ c.1 < g.rows ∧ 0 ≤ c.2 ∧ c.2 < g.columns) := by
        intro hP
        rw [(in_bounds_iff g c).mpr hP] at hold
        exact Bool.noConfusion hold
      simp only [GridMatrix.get_cell, hnew, if_true]
      rw [cellsGet_buildCells _ _ _ _ _ (by omega) (by omega)]
      rw [if_neg (by omega : ¬(c.1.toNat < g.rows.toNat ∧ c.2.toNat < g.columns.toNat))]

/-- C7 witness: resizing a 10x10 grid with an occupied cell at `(3, 4)`
to `(9, 50)` fails and leaves the grid unchanged; resizing it to
`(20, 20)` succeeds and keeps `(3, 4)` occupied. -/
theorem C7_try_resize_witness :
    (¬((9 : Int) ≥ 10 ∧ (50 : Int) ≥ 10) ∧
      ((mkGridMatrix 10 10 false).try_set_cell (3, 4)).2.try_resize 9 50 =
        (false, ((mkGridMatrix 10 10 false).try_set_cell (3, 4)).2)) ∧
    (((mkGridMatrix 10 10 false).try_set_cell (3, 4)).2.get_cell (3, 4) = true ∧
      ((((mkGridMatrix 10 10 false).try_set_cell (3, 4)).2.try_resize 20 20).2.get_cell
          (3, 4) =
        ((mkGridMatrix 10 10 false).try_set_cell (3, 4)).2.get_cell (3, 4))) :=
  ⟨⟨by decide,
      (C7_try_resize ((mkGridMatrix 10 10 false).try_set_cell (3, 4)).2 9 50).1
        (by decide)⟩,
    ⟨by decide,
      (((C7_try_resize ((mkGridMatrix 10 10 false).try_set_cell (3, 4)).2 20 20).2
            (by decide) (by decide)).2.2.2.1 (3, 4) (by decide) (by decide))⟩⟩

/-! ## C8: soft failure on unreachable targets -/

theorem get_cell_of_mem_neighbors (g : GridMatrix) (cur c : Cell)
    (h : c ∈ g.neighbors cur) : g.get_cell c = false := by
  unfold GridMatrix.neighbors at h
  rw [List.mem_filter] at h
  simpa using h.2

theorem in_bounds_of_mem_neighbors (g : GridMatrix) (cur c : Cell)
    (h : c ∈ g.neighbors cur) : g.in_bounds c = true := by
  unfold GridMatrix.neighbors at h
  rw [List.mem_filter] at h
  have h1 := h.1
  rw [List.mem_filter] at h1
  simpa using h1.2

theorem acontains_bfs_expand (current : Cell) (ns : List Cell)
    (frontier : List Cell) (cf : CameFrom) (c : Cell)
    (h : acontains (bfs_expand current ns frontier cf).2 c = true) :
    acontains cf c = true ∨ c ∈ ns := by
  induction ns generalizing frontier cf with
  | nil => exact Or.inl h
  | cons n ns ih =>
    by_cases hn : acontains cf n = true
    · simp only [bfs_expand, hn, if_true] at h
      rcases ih _ _ h with h1 | h2
      · exact Or.inl h1
      · exact Or.inr (List.mem_cons_of_mem n h2)
    · simp only [bfs_expand, hn, if_false] at h
      rcases ih _ _ h with h1 | h2
      · rw [acontains_ainsert] at h1
        rw [Bool.or_eq_true] at h1
        rcases h1 with h3 | h4
        · exact Or.inr (by simp [of_decide_eq_true h3])
        · exact Or.inl h4
      · exact Or.inr (List.mem_cons_of_mem n h2)

theorem bfs_loop_keys (g : GridMatrix) (target source : Cell) (fuel : Nat)
    (frontier : List Cell) (cf : CameFrom) (pops : List Cell)
    (hinv : ∀ c, acontains cf c = true → c = source ∨ g.get_cell c = false)
    (out : List Cell × CameFrom)
    (hrun : bfs_loop g target fuel frontier cf pops = some out) :
    ∀ c, acontains out.2 c = true → c = source ∨ g.get_cell c = false := by
  induction fuel generalizing frontier cf pops with
  | zero => simp [bfs_loop] at hrun
  | succ n ih =>
    match frontier with
    | [] =>
      simp only [bfs_loop, Option.some_inj] at hrun
      subst hrun
      exact hinv
    | cur :: rest =>
      by_cases ht : cur = target
      · simp only [bfs_loop, if_pos ht, Option.some_inj] at hrun
        subst hrun
        exact hinv
      · simp only [bfs_loop, if_neg ht] at hrun
        refine ih _ _ _ ?_ hrun
        intro c hc
        rcases acontains_bfs_expand cur (g.neighbors cur) rest cf c hc with h1 | h2
        · exact hinv c h1
        · exact Or.inr (get_cell_of_mem_neighbors g cur c h2)

/-- C8: `reconstruct_path` returns the empty sequence whenever the
target is absent from the predecessor map (in particular on the empty
map), and consequently a completed BFS `solve` whose target is a wall
(and differs from the source) returns the empty path as its normal
result. -/
theorem C8_unreachable_returns_empty :
    (∀ (cf : CameFrom) (s t : Cell), acontains cf t = false →
      reconstruct_path cf s t = some []) ∧
    (∀ (g : GridMatrix) (s t : Cell) (fuel : Nat)
      (r : Option (List Cell)), g.get_cell t = true → t ≠ s →
      bfs_solve g s t fuel = some r → r = some []) := by
  constructor
  · intro cf s t h
    simp [reconstruct_path, h]
  · intro g s t fuel r hwall hne hrun
    rcases Option.map_eq_some'.mp hrun with ⟨out, hout, hr⟩
    have hkeys := bfs_loop_keys g t s fuel [s] [(s, none)] [] ?_ out hout
    · have habs : acontains out.2 t = false := by
        by_contra hcontra
        have : acontains out.2 t = true := by
          cases hval : acontains out.2 t
          · exact absurd hval hcontra
          · rfl
        rcases hkeys t this with h1 | h2
        · exact hne h1
        · rw [hwall] at h2
          exact Bool.noConfusion h2
      rw [← hr]
      simp [reconstruct_path, habs]
    · intro c hc
      simp only [acontains, alookup] at hc
      by_cases hcs : s = c
      · exact Or.inl hcs.symm
      · simp [hcs] at hc

/-- C8 witness: on a 3x3 free grid with the single cell `(1, 1)`
occupied, BFS from `(0, 0)` to the walled target `(1, 1)` completes and
returns the empty path; `reconstruct_path` on the empty map is empty. -/
theorem C8_unreachable_returns_empty_witness :
    (acontains ([] : CameFrom) (1, 1) = false ∧
      reconstruct_path [] (0, 0) (1, 1) = some []) ∧
    (((mkGridMatrix 3 3 false).try_set_cell (1, 1)).2.get_cell (1, 1) = true ∧
      ((1, 1) : Cell) ≠ (0, 0) ∧
      bfs_solve ((mkGridMatrix 3 3 false).try_set_cell (1, 1)).2 (0, 0) (1, 1) 30 =
        some (some []) ∧
      (some [] : Option (List Cell)) = some []) :=
  ⟨⟨by decide, C8_unreachable_returns_empty.1 [] (0, 0) (1, 1) (by decide)⟩,
    ⟨by decide, by decide, by decide,
      C8_unreachable_returns_empty.2 ((mkGridMatrix 3 3 false).try_set_cell (1, 1)).2
        (0, 0) (1, 1) 30 (some []) (by decide) (by decide) (by decide)⟩⟩

/-! ## C5: BFS trace steps -/

theorem bfs_trace_expand_steps (current : Cell) (ns : List Cell)
    (frontier : List Cell) (cf : CameFrom) (selected : List Cell)
    (steps : List SolveStep) :
    (bfs_trace_expand current ns frontier cf selected steps).2.2.2 =
      steps ++ trace_steps_from current cf selected ns := by
  induction ns generalizing frontier cf selected steps with
  | nil => simp [bfs_trace_expand, trace_steps_from]
  | cons n ns ih =>
    by_cases hn : acontains cf n = true
    · simp only [bfs_trace_expand, hn, if_true]
      rw [ih]
      simp [trace_steps_from, hn]
    · simp only [bfs_trace_expand, hn, Bool.false_eq_true, if_false]
      rw [ih]
      simp only [trace_steps_from]
      rw [if_neg hn]
      simp

theorem trace_steps_from_length (current : Cell) (ns : List Cell)
    (cf : CameFrom) (selected : List Cell) :
    (trace_steps_from current cf selected ns).length = ns.length := by
  induction ns generalizing cf selected with
  | nil => simp [trace_steps_from]
  | cons n ns ih =>
    by_cases hn : acontains cf n = true <;>
      simp [trace_steps_from, hn, ih]

theorem trace_steps_from_get (current : Cell) (ns : List Cell)
    (cf : CameFrom) (selected : List Cell) (i : Nat) (st : SolveStep)
    (h : (trace_steps_from current cf selected ns).get? i = some st) :
    ns.get? i = some st.selected ∧
      (∀ c : Cell, c ∈ st.used ↔
        c ∈ selected ∨ c ∈ newly_enqueued current cf (ns.take i)) := by
  induction ns generalizing cf selected i with
  | nil => simp [trace_steps_from] at h
  | cons n ns ih =>
    match i with
    | 0 =>
      simp only [trace_steps_from, List.get?_cons_zero, Option.some_inj] at h
      subst h
      simp [newly_enqueued]
    | i + 1 =>
      simp only [trace_steps_from, List.get?_cons_succ] at h
      by_cases hn : acontains cf n = true
      · rw [if_pos hn] at h
        rcases ih cf selected i h with ⟨h1, h2⟩
        refine ⟨by simpa using h1, ?_⟩
        intro c
        rw [h2 c]
        simp [newly_enqueued, hn]
      · rw [if_neg hn] at h
        rcases ih (ainsert cf n (some current)) (selected ++ [n]) i h with ⟨h1, h2⟩
        refine ⟨by simpa using h1, ?_⟩
        intro c
        rw [h2 c]
        have hx : newly_enqueued current cf (n :: List.take i ns) =
            n :: newly_enqueued current (ainsert cf n (some current)) (List.take i ns) := by
          simp only [newly_enqueued]
          rw [if_neg hn]
        rw [List.take_succ_cons, hx]
        simp only [List.mem_append, List.mem_singleton, List.mem_cons]
        tauto

/-- C5 counterexample: on a free 3x3 grid, BFS traced from `(1, 1)`
emits as its first step the newly enqueued neighbor `(1, 2)` with
`used = []` (not the singleton of the neighbor), and as its second step
the newly enqueued neighbor `(1, 0)` with `used = [(1, 2)]` (neither a
singleton of that neighbor nor empty). -/
theorem C5_used_counterexample :
    (bfs_trace_run (mkGridMatrix 3 3 false) (1, 1) (2, 2) 50).map
        (fun r => (r.2.get? 0, r.2.get? 1)) =
      some
        (some ⟨(1, 2), [], [((1, 1), none)]⟩,
          some ⟨(1, 0), [(1, 2)], [((1, 1), none), ((1, 2), some (1, 1))]⟩) := by
  decide

/-- C5 (amended): in BFS traced mode, one `SolveStep` is emitted per
neighbor examined (including already-visited neighbors, before the
containment check), in examination order, and each step's `used` field
equals (as a set) the set of neighbors examined earlier in the current
expansion that were newly enqueued at their step — not the singleton of
the step's own neighbor. -/
theorem C5_bfs_trace_steps_amended (g : GridMatrix) (current : Cell)
    (frontier : List Cell) (cf : CameFrom) :
    ((bfs_trace_expand current (g.neighbors current) frontier cf [] []).2.2.2).length =
        (g.neighbors current).length ∧
      (∀ (i : Nat) (st : SolveStep),
        ((bfs_trace_expand current (g.neighbors current) frontier cf [] []).2.2.2).get? i =
            some st →
          (g.neighbors current).get? i = some st.selected ∧
            (∀ c : Cell, c ∈ st.used ↔
              c ∈ newly_enqueued current cf ((g.neighbors current).take i))) := by
  rw [bfs_trace_expand_steps]
  simp only [List.nil_append]
  refine ⟨trace_steps_from_length current (g.neighbors current) cf [], ?_⟩
  intro i st h
  rcases trace_steps_from_get current (g.neighbors current) cf [] i st h with ⟨h1, h2⟩
  refine ⟨h1, ?_⟩
  intro c
  rw [h2 c]
  simp

/-- C5 witness: the amended statement evaluated on the free 3x3 grid at
the expansion of `(1, 1)`: the second step examines `(1, 0)` and its
`used` set contains `(1, 2)`, the neighbor newly enqueued one step
earlier. -/
theorem C5_bfs_trace_steps_amended_witness :
    ((bfs_trace_expand (1, 1)
        ((mkGridMatrix 3 3 false).neighbors (1, 1)) [] [((1, 1), none)] [] []).2.2.2).get?
          1 =
        some ⟨(1, 0), [(1, 2)], [((1, 1), none), ((1, 2), some (1, 1))]⟩ ∧
      ((mkGridMatrix 3 3 false).neighbors (1, 1)).get? 1 = some (1, 0) ∧
        (((1, 2) : Cell) ∈ ([(1, 2)] : List Cell) ↔
          ((1, 2) : Cell) ∈ newly_enqueued (1, 1) [((1, 1), none)]
            (((mkGridMatrix 3 3 false).neighbors (1, 1)).take 1)) := by
  refine ⟨by decide, ?_⟩
  have h := (C5_bfs_trace_steps_amended (mkGridMatrix 3 3 false) (1, 1) []
    [((1, 1), none)]).2 1 ⟨(1, 0), [(1, 2)], [((1, 1), none), ((1, 2), some (1, 1))]⟩
    (by decide)
  exact ⟨h.1, h.2 (1, 2)⟩

/-! ## C6: traced runs expand exactly as the untraced runs -/

theorem bfs_trace_expand_state (current : Cell) (ns : List Cell)
    (frontier : List Cell) (cf : CameFrom) (selected : List Cell)
    (steps : List SolveStep) :
    (bfs_trace_expand current ns frontier cf selected steps).1 =
        (bfs_expand current ns frontier cf).1 ∧
      (bfs_trace_expand current ns frontier cf selected steps).2.1 =
        (bfs_expand current ns frontier cf).2 := by
  induction ns generalizing frontier cf selected steps with
  | nil => exact ⟨rfl, rfl⟩
  | cons n ns ih =>
    by_cases hn : acontains cf n = true
    · simp only [bfs_trace_expand, bfs_expand, hn, if_true]
      exact ih _ _ _ _
    · simp only [bfs_trace_expand, bfs_expand, hn, Bool.false_eq_true, if_false]
      exact ih _ _ _ _

theorem bfs_trace_loop_pops (g : GridMatrix) (target : Cell) (fuel : Nat)
    (frontier : List Cell) (cf : CameFrom) (pops : List Cell)
    (steps : List SolveStep) :
    (bfs_trace_loop g target fuel frontier cf pops steps).map (·.1) =
      (bfs_loop g target fuel frontier cf pops).map (·.1) := by
  induction fuel generalizing frontier cf pops steps with
  | zero => rfl
  | succ n ih =>
    match frontier with
    | [] => rfl
    | cur :: rest =>
      by_cases ht : cur = target
      · simp [bfs_trace_loop, bfs_loop, ht]
      · simp only [bfs_trace_loop, bfs_loop, if_neg ht]
        rw [(bfs_trace_expand_state cur (g.neighbors cur) rest cf [] []).1,
          (bfs_trace_expand_state cur (g.neighbors cur) rest cf [] []).2]
        exact ih _ _ _ _

theorem astar_trace_expand_state (target current : Cell) (ns : List Cell)
    (frontier : List Entry) (cf : CameFrom) (csf : CostMap)
    (selected : List Cell) (steps : List SolveStep) (evts : List QEvent) :
    (astar_trace_expand target current ns frontier cf csf selected steps).map
        (fun s => (s.1, s.2.1, s.2.2.1)) =
      (astar_expand target current ns frontier cf csf evts).map
        (fun s => (s.1, s.2.1, s.2.2.1)) := by
  induction ns generalizing frontier cf csf selected steps evts with
  | nil => rfl
  | cons n ns ih =>
    cases hl : alookup csf current with
    | none => simp [astar_trace_expand, astar_expand, hl]
    | some c0 =>
      simp only [astar_trace_expand, astar_expand, hl]
      by_cases himp :
        (match alookup csf n with
          | none => true
          | some old => decide (c0 + get_cost current n < old)) = true
      · rw [if_pos himp, if_pos himp]
        exact ih _ _ _ _ _ _
      · rw [if_neg himp, if_neg himp]
        exact ih _ _ _ _ _ _

theorem astar_trace_loop_pops (g : GridMatrix) (target : Cell) (fuel : Nat)
    (frontier : List Entry) (cf : CameFrom) (csf : CostMap) (pops : List Cell)
    (steps : List SolveStep) (evts : List QEvent) :
    (astar_trace_loop g target fuel frontier cf csf pops steps).map
        (RunResult.map (·.1)) =
      (astar_loop g target fuel frontier cf csf pops evts).map
        (RunResult.map (·.1)) := by
  induction fuel generalizing frontier cf csf pops steps evts with
  | zero => rfl
  | succ n ih =>
    cases hp : popMin frontier with
    | none => simp [astar_trace_loop, astar_loop, hp, RunResult.map]
    | some pr =>
      obtain ⟨⟨p, cur⟩, rest⟩ := pr
      by_cases ht : cur = target
      · simp [astar_trace_loop, astar_loop, hp, ht, RunResult.map]
      · simp only [astar_trace_loop, astar_loop, hp, if_neg ht]
        have hex := astar_trace_expand_state target cur (g.neighbors cur) rest cf csf
          [] [] (evts ++ [QEvent.pop p cur])
        cases he : astar_expand target cur (g.neighbors cur) rest cf csf
            (evts ++ [QEvent.pop p cur]) with
        | none =>
          rw [he] at hex
          cases htr : astar_trace_expand target cur (g.neighbors cur) rest cf csf [] [] with
          | none => simp [RunResult.map]
          | some s2 =>
            rw [htr] at hex
            simp at hex
        | some s =>
          rw [he] at hex
          cases htr : astar_trace_expand target cur (g.neighbors cur) rest cf csf [] [] with
          | none =>
            rw [htr] at hex
            simp at hex
          | some s2 =>
            rw [htr] at hex
            simp only [Option.map_some', Option.some_inj, Prod.mk.injEq] at hex
            simp only
            rw [hex.1, hex.2.1, hex.2.2]
            exact ih _ _ _ _ _ _

/-- C6: the traced solves are deterministic functions of the inputs, and
expand (pop from the frontier) exactly the cells the untraced solves
expand, with identical fuel behavior, for both BFS and A*. -/
theorem C6_trace_expansion_matches_solve (g : GridMatrix) (s t : Cell)
    (fuel : Nat) :
    bfs_trace_pops g s t fuel = bfs_solve_pops g s t fuel ∧
      astar_trace_pops g s t fuel = astar_solve_pops g s t fuel := by
  constructor
  · unfold bfs_trace_pops bfs_solve_pops bfs_trace_run bfs_run
    exact bfs_trace_loop_pops g t fuel [s] [(s, none)] [] []
  · unfold astar_trace_pops astar_solve_pops astar_trace_run astar_run
    exact astar_trace_loop_pops g t fuel [(0, s)] [(s, none)] [(s, 0)] [] []
      [QEvent.push 0 s]

/-! ## C3: priority queue order -/

theorem entryLe_refl (e : Entry) : entryLe e e = true := by
  simp [entryLe, cellLe]

theorem entryLe_total (e f : Entry) : entryLe e f = true ∨ entryLe f e = true := by
  simp only [entryLe, cellLe, Bool.or_eq_true, Bool.and_eq_true, decide_eq_true_eq]
  omega

theorem entryLe_trans (a b c : Entry) (h1 : entryLe a b = true)
    (h2 : entryLe b c = true) : entryLe a c = true := by
  simp only [entryLe, cellLe, Bool.or_eq_true, Bool.and_eq_true,
    decide_eq_true_eq] at h1 h2 ⊢
  omega

theorem entryLe_antisymm (a b : Entry) (h1 : entryLe a b = true)
    (h2 : entryLe b a = true) : a = b := by
  obtain ⟨a1, a2, a3⟩ := a
  obtain ⟨b1, b2, b3⟩ := b
  simp only [entryLe, cellLe, Bool.or_eq_true, Bool.and_eq_true,
    decide_eq_true_eq] at h1 h2
  simp only [Prod.mk.injEq]
  omega

theorem popMin_eq_none_iff (l : List Entry) : popMin l = none ↔ l = [] := by
  cases l with
  | nil => simp [popMin]
  | cons a as =>
    simp only [popMin]
    cases popMin as with
    | none => simp
    | some mr =>
      by_cases h : entryLe a mr.1 = true <;> simp [h]

theorem popMin_perm (l : List Entry) (e : Entry) (rest : List Entry)
    (h : popMin l = some (e, rest)) : l.Perm (e :: rest) := by
  induction l generalizing e rest with
  | nil => simp [popMin] at h
  | cons a as ih =>
    cases hm : popMin as with
    | none =>
      have has : as = [] := (popMin_eq_none_iff as).mp hm
      subst has
      simp only [popMin, Option.some_inj, Prod.mk.injEq] at h
      rw [← h.1, ← h.2]
    | some mr =>
      obtain ⟨m, r⟩ := mr
      simp only [popMin, hm] at h
      by_cases hle : entryLe a m = true
      · rw [if_pos hle] at h
        simp only [Option.some_inj, Prod.mk.injEq] at h
        rw [← h.1, ← h.2]
      · rw [if_neg hle] at h
        simp only [Option.some_inj, Prod.mk.injEq] at h
        have hperm := ih m r hm
        rw [← h.1, ← h.2]
        exact List.Perm.trans (List.Perm.cons a hperm) (List.Perm.swap m a r)

theorem popMin_le (l : List Entry) (e : Entry) (rest : List Entry)
    (h : popMin l = some (e, rest)) : ∀ x ∈ l, entryLe e x = true := by
  induction l generalizing e rest with
  | nil => simp [popMin] at h
  | cons a as ih =>
    cases hm : popMin as with
    | none =>
      have has : as = [] := (popMin_eq_none_iff as).mp hm
      subst has
      simp only [popMin, Option.some_inj, Prod.mk.injEq] at h
      intro x hx
      simp only [List.mem_singleton] at hx
      rw [hx, ← h.1]
      exact entryLe_refl a
    | some mr =>
      obtain ⟨m, r⟩ := mr
      simp only [popMin, hm] at h
      by_cases hle : entryLe a m = true
      · rw [if_pos hle] at h
        simp only [Option.some_inj, Prod.mk.injEq] at h
        intro x hx
        rw [← h.1]
        rcases List.mem_cons.mp hx with h1 | h2
        · rw [h1]
          exact entryLe_refl a
        · exact entryLe_trans a m x hle (ih m r hm x h2)
      · rw [if_neg hle] at h
        simp only [Option.some_inj, Prod.mk.injEq] at h
        intro x hx
        rw [← h.1]
        rcases List.mem_cons.mp hx with h1 | h2
        · rw [h1]
          rcases entryLe_total a m with h3 | h4
          · exact absurd h3 hle
          · exact h4
        · exact ih m r hm x h2

theorem popAllFuel_perm (fuel : Nat) (l : List Entry) (h : l.length ≤ fuel) :
    (popAllFuel fuel l).Perm l := by
  induction fuel generalizing l with
  | zero =>
    rw [List.length_eq_zero.mp (Nat.le_zero.mp h)]
    exact List.Perm.refl _
  | succ n ih =>
    cases hm : popMin l with
    | none =>
      have hl : l = [] := (popMin_eq_none_iff l).mp hm
      subst hl
      simp [popAllFuel, popMin]
    | some mr =>
      obtain ⟨e, rest⟩ := mr
      have hperm := popMin_perm l e rest hm
      have hlen : rest.length ≤ n := by
        have := hperm.length_eq
        simp at this
        omega
      simp only [popAllFuel, hm]
      exact List.Perm.trans (List.Perm.cons e (ih rest hlen)) hperm.symm

theorem popAllFuel_sorted (fuel : Nat) (l : List Entry) (h : l.length ≤ fuel) :
    List.Sorted (fun a b => entryLe a b = true) (popAllFuel fuel l) := by
  induction fuel generalizing l with
  | zero => simp [popAllFuel]
  | succ n ih =>
    cases hm : popMin l with
    | none => simp [popAllFuel, hm]
    | some mr =>
      obtain ⟨e, rest⟩ := mr
      have hperm := popMin_perm l e rest hm
      have hlen : rest.length ≤ n := by
        have := hperm.length_eq
        simp at this
        omega
      simp only [popAllFuel, hm]
      rw [List.sorted_cons]
      refine ⟨?_, ih rest hlen⟩
      intro b hb
      have hbrest : b ∈ rest := (popAllFuel_perm n rest hlen).mem_iff.mp hb
      have hbl : b ∈ l := hperm.symm.mem_iff.mp (List.mem_cons_of_mem e hbrest)
      exact popMin_le l e rest hm b hbl

/-- C3 counterexample: in the A* run on the free 3x3 grid from `(0, 0)`
toward the unreachable target `(5, 5)`, `(1, 0)` is pushed with
priority 10001 (event index 3) before `(0, 2)` is pushed with the same
priority (event index 6), yet `(0, 2)` is popped first (event index 13
versus 14): equal-priority ties are not broken by insertion order. -/
theorem C3_tie_break_counterexample :
    astar_events (mkGridMatrix 3 3 false) (0, 0) (5, 5) 60 =
        some (.ok
          [.push 0 (0, 0), .pop 0 (0, 0), .push 10000 (0, 1), .push 10001 (1, 0),
            .pop 10000 (0, 1), .push 10000 (1, 1), .push 10001 (0, 2),
            .pop 10000 (1, 1), .push 10000 (1, 2), .push 10001 (2, 1),
            .pop 10000 (1, 2), .push 10000 (2, 2), .pop 10000 (2, 2),
            .pop 10001 (0, 2), .pop 10001 (1, 0), .push 10001 (2, 0),
            .pop 10001 (2, 0), .pop 10001 (2, 1)]) ∧
      (astar_events (mkGridMatrix 3 3 false) (0, 0) (5, 5) 60).map
          (RunResult.map (fun evts =>
            (evts.get? 3, evts.get? 6, evts.get? 13, evts.get? 14))) =
        some (.ok (some (.push 10001 (1, 0)), some (.push 10001 (0, 2)),
          some (.pop 10001 (0, 2)), some (.pop 10001 (1, 0)))) := by
  constructor
  · decide
  · decide

/-- C3 (amended): the frontier of the cost-aware searches pops entries
in ascending `(priority, cell)` lexicographic order — draining it gives
a sorted permutation of the pushed entries, independent of insertion
order — so ties between equal-priority entries are broken by cell
coordinate order (row, then column), not by insertion order. -/
theorem C3_priority_order_amended (l l2 : List Entry) :
    List.Sorted (fun a b => entryLe a b = true) (popAll l) ∧
      (popAll l).Perm l ∧ (l.Perm l2 → popAll l = popAll l2) := by
  refine ⟨popAllFuel_sorted l.length l (Nat.le_refl _),
    popAllFuel_perm l.length l (Nat.le_refl _), ?_⟩
  intro hp
  haveI : IsAntisymm Entry (fun a b => entryLe a b = true) := ⟨entryLe_antisymm⟩
  refine List.eq_of_perm_of_sorted ?_
    (popAllFuel_sorted l.length l (Nat.le_refl _))
    (popAllFuel_sorted l2.length l2 (Nat.le_refl _))
  exact List.Perm.trans
    (List.Perm.trans (popAllFuel_perm l.length l (Nat.le_refl _)) hp)
    (popAllFuel_perm l2.length l2 (Nat.le_refl _)).symm

/-- C3 witness: two queues holding the same three entries in different
insertion orders drain identically, in ascending `(priority, cell)`
order. -/
theorem C3_priority_order_amended_witness :
    (([((5 : Nat), ((1 : Int), (0 : Int))), (3, (2, 2)), (3, (0, 7))] : List Entry).Perm
        [(3, (0, 7)), (5, (1, 0)), (3, (2, 2))]) ∧
      popAll [((5 : Nat), ((1 : Int), (0 : Int))), (3, (2, 2)), (3, (0, 7))] =
        popAll [(3, (0, 7)), (5, (1, 0)), (3, (2, 2))] :=
  ⟨by decide,
    (C3_priority_order_amended [((5 : Nat), ((1 : Int), (0 : Int))), (3, (2, 2)), (3, (0, 7))]
      [(3, (0, 7)), (5, (1, 0)), (3, (2, 2))]).2.2 (by decide)⟩

/-! ## C9: cost_so_far lookups never fail -/

theorem astar_expand_keys_mono (target current : Cell) (ns : List Cell)
    (frontier : List Entry) (cf : CameFrom) (csf : CostMap) (evts : List QEvent)
    (s : List Entry × CameFrom × CostMap × List QEvent)
    (h : astar_expand target current ns frontier cf csf evts = some s) :
    ∀ c, acontains csf c = true → acontains s.2.2.1 c = true := by
  induction ns generalizing frontier cf csf evts with
  | nil =>
    simp only [astar_expand, Option.some_inj] at h
    subst h
    exact fun c hc => hc
  | cons n ns ih =>
    cases hl : alookup csf current with
    | none => simp [astar_expand, hl] at h
    | some c0 =>
      simp only [astar_expand, hl] at h
      by_cases himp :
        (match alookup csf n with
          | none => true
          | some old => decide (c0 + get_cost current n < old)) = true
      · rw [if_pos himp] at h
        intro c hc
        refine ih _ _ _ _ h c ?_
        rw [acontains_ainsert]
        simp [hc]
      · rw [if_neg himp] at h
        exact ih _ _ _ _ h

theorem astar_expand_frontier_keys (target current : Cell) (ns : List Cell)
    (frontier : List Entry) (cf : CameFrom) (csf : CostMap) (evts : List QEvent)
    (s : List Entry × CameFrom × CostMap × List QEvent)
    (h : astar_expand target current ns frontier cf csf evts = some s)
    (hf : ∀ e ∈ frontier, acontains csf e.2 = true) :
    ∀ e ∈ s.1, acontains s.2.2.1 e.2 = true := by
  induction ns generalizing frontier cf csf evts with
  | nil =>
    simp only [astar_expand, Option.some_inj] at h
    subst h
    exact hf
  | cons n ns ih =>
    cases hl : alookup csf current with
    | none => simp [astar_expand, hl] at h
    | some c0 =>
      simp only [astar_expand, hl] at h
      by_cases himp :
        (match alookup csf n with
          | none => true
          | some old => decide (c0 + get_cost current n < old)) = true
      · rw [if_pos himp] at h
        refine ih _ _ _ _ h ?_
        intro e he
        rw [acontains_ainsert]
        rcases List.mem_append.mp he with h1 | h2
        · simp [hf e h1]
        · simp only [List.mem_singleton] at h2
          subst h2
          simp
      · rw [if_neg himp] at h
        exact ih _ _ _ _ h hf

theorem astar_expand_isSome (target current : Cell) (ns : List Cell)
    (frontier : List Entry) (cf : CameFrom) (csf : CostMap) (evts : List QEvent)
    (h : acontains csf current = true) :
    (astar_expand target current ns frontier cf csf evts).isSome = true := by
  induction ns generalizing frontier cf csf evts with
  | nil => simp [astar_expand]
  | cons n ns ih =>
    cases hl : alookup csf current with
    | none => simp [acontains, hl] at h
    | some c0 =>
      simp only [astar_expand, hl]
      by_cases himp :
        (match alookup csf n with
          | none => true
          | some old => decide (c0 + get_cost current n < old)) = true
      · rw [if_pos himp]
        refine ih _ _ _ _ ?_
        rw [acontains_ainsert]
        simp [h]
      · rw [if_neg himp]
        exact ih _ _ _ _ h

theorem astar_loop_no_keyerror (g : GridMatrix) (target : Cell) (fuel : Nat)
    (frontier : List Entry) (cf : CameFrom) (csf : CostMap) (pops : List Cell)
    (evts : List QEvent)
    (hf : ∀ e ∈ frontier, acontains csf e.2 = true) :
    astar_loop g target fuel frontier cf csf pops evts ≠ some RunResult.keyError := by
  induction fuel generalizing frontier cf csf pops evts with
  | zero => simp [astar_loop]
  | succ n ih =>
    cases hp : popMin frontier with
    | none => simp [astar_loop, hp]
    | some pr =>
      obtain ⟨⟨p, cur⟩, rest⟩ := pr
      by_cases ht : cur = target
      · simp [astar_loop, hp, ht]
      · simp only [astar_loop, hp, if_neg ht]
        have hcur : acontains csf cur = true := by
          have hmem : ((p, cur) : Entry) ∈ frontier :=
            (popMin_perm frontier (p, cur) rest hp).symm.mem_iff.mp (List.mem_cons_self _ _)
          exact hf (p, cur) hmem
        cases he : astar_expand target cur (g.neighbors cur) rest cf csf
            (evts ++ [QEvent.pop p cur]) with
        | none =>
          have := astar_expand_isSome target cur (g.neighbors cur) rest cf csf
            (evts ++ [QEvent.pop p cur]) hcur
          rw [he] at this
          simp at this
        | some s =>
          refine ih _ _ _ _ _ ?_
          refine astar_expand_frontier_keys target cur (g.neighbors cur) rest cf csf
            (evts ++ [QEvent.pop p cur]) s he ?_
          intro e hrest
          have hmem : e ∈ frontier :=
            (popMin_perm frontier (p, cur) rest hp).symm.mem_iff.mp
              (List.mem_cons_of_mem _ hrest)
          exact hf e hmem

/-- C9: every cell pushed onto the A* frontier is a key of
`cost_so_far` from the moment it is pushed (the source before the loop,
each neighbor right at its push), so the `cost_so_far[current]` lookups
after each pop never raise, in `solve` and in `get_solve_queue`, for
every grid, source, target and fuel. -/
theorem C9_no_key_error (g : GridMatrix) (s t : Cell) (fuel : Nat) :
    astar_run g s t fuel ≠ some RunResult.keyError ∧
      astar_trace_run g s t fuel ≠ some RunResult.keyError := by
  have hinit : ∀ e ∈ ([((0 : Nat), s)] : List Entry),
      acontains ([(s, (0 : Nat))] : CostMap) e.2 = true := by
    intro e he
    simp only [List.mem_singleton] at he
    subst he
    simp [acontains, alookup]
  constructor
  · exact astar_loop_no_keyerror g t fuel [(0, s)] [(s, none)] [(s, 0)] []
      [QEvent.push 0 s] hinit
  · intro hcrash
    have hmap := astar_trace_loop_pops g t fuel [(0, s)] [(s, none)] [(s, 0)] [] []
      [QEvent.push 0 s]
    unfold astar_trace_run at hcrash
    rw [hcrash] at hmap
    simp only [Option.map_some', RunResult.map] at hmap
    cases hrun : astar_loop g t fuel [(0, s)] [(s, none)] [(s, 0)] []
        [QEvent.push 0 s] with
    | none => rw [hrun] at hmap; simp at hmap
    | some r =>
      cases r with
      | ok v => rw [hrun] at hmap; simp [RunResult.map] at hmap
      | keyError =>
        exact astar_loop_no_keyerror g t fuel [(0, s)] [(s, none)] [(s, 0)] []
          [QEvent.push 0 s] hinit hrun

/-- C9 witness: on the free 3x3 grid from `(0, 0)` to `(2, 2)` both A*
runs complete without a `KeyError`, expanding the cells
`(0,0), (0,1), (1,1), (1,2), (2,2)`. -/
theorem C9_no_key_error_witness :
    astar_solve_pops (mkGridMatrix 3 3 false) (0, 0) (2, 2) 50 =
        some (RunResult.ok [(0, 0), (0, 1), (1, 1), (1, 2), (2, 2)]) ∧
      (astar_run (mkGridMatrix 3 3 false) (0, 0) (2, 2) 50 ≠
          some RunResult.keyError ∧
        astar_trace_run (mkGridMatrix 3 3 false) (0, 0) (2, 2) 50 ≠
          some RunResult.keyError) :=
  ⟨by decide, C9_no_key_error (mkGridMatrix 3 3 false) (0, 0) (2, 2) 50⟩

/-! ## C10: termination support lemmas -/

theorem get_cost_le (a b : Cell) : get_cost a b ≤ 1001 := by
  simp only [get_cost]
  split_ifs <;> omega

theorem mem_allCells (g : GridMatrix) (c : Cell) (h : g.in_bounds c = true) :
    c ∈ allCells g := by
  rw [in_bounds_iff] at h
  unfold allCells
  rw [List.mem_flatMap]
  refine ⟨c.1.toNat, ?_, ?_⟩
  · rw [List.mem_range]
    omega
  · rw [List.mem_map]
    refine ⟨c.2.toNat, ?_, ?_⟩
    · rw [List.mem_range]
      omega
    · have h1 : Int.ofNat c.1.toNat = c.1 := Int.toNat_of_nonneg h.1
      have h2 : Int.ofNat c.2.toNat = c.2 := Int.toNat_of_nonneg h.2.2.1
      rw [h1, h2]

theorem alookup_mem {α : Type} (l : List (Cell × α)) (k : Cell) (v : α)
    (h : alookup l k = some v) : (k, v) ∈ l := by
  induction l with
  | nil => simp [alookup] at h
  | cons p rest ih =>
    by_cases hp : p.1 = k
    · simp only [alookup, hp, if_true, Option.some_inj] at h
      have hpv : p = (k, v) := by
        obtain ⟨p1, p2⟩ := p
        simp only at hp h
        rw [hp, h]
      rw [← hpv]
      exact List.mem_cons_self _ _
    · simp only [alookup, hp, if_false] at h
      exact List.mem_cons_of_mem _ (ih h)

theorem mem_ainsert {α : Type} (l : List (Cell × α)) (k : Cell) (v : α)
    (p : Cell × α) (h : p ∈ ainsert l k v) : p = (k, v) ∨ p ∈ l := by
  induction l with
  | nil => simpa [ainsert] using h
  | cons q rest ih =>
    by_cases hq : q.1 = k
    · simp only [ainsert, hq, if_true] at h
      rcases List.mem_cons.mp h with h1 | h2
      · exact Or.inl h1
      · exact Or.inr (List.mem_cons_of_mem _ h2)
    · simp only [ainsert, hq, if_false] at h
      rcases List.mem_cons.mp h with h1 | h2
      · right
        rw [h1]
        exact List.mem_cons_self _ _
      · rcases ih h2 with h3 | h4
        · exact Or.inl h3
        · exact Or.inr (List.mem_cons_of_mem _ h4)

theorem asum_ainsert_fresh (l : CostMap) (k : Cell) (v : Nat)
    (h : acontains l k = false) : asum (ainsert l k v) = asum l + v := by
  induction l with
  | nil => simp [ainsert, asum]
  | cons p rest ih =>
    by_cases hp : p.1 = k
    · simp [acontains, alookup, hp] at h
    · simp only [acontains, alookup, hp, if_false] at h
      simp only [ainsert, hp, if_false, asum, List.map_cons, List.sum_cons]
      have ih2 := ih h
      simp only [asum] at ih2
      rw [ih2]
      omega

theorem asum_ainsert_update (l : CostMap) (k : Cell) (v old : Nat)
    (h : alookup l k = some old) : asum (ainsert l k v) + old = asum l + v := by
  induction l with
  | nil => simp [alookup] at h
  | cons p rest ih =>
    by_cases hp : p.1 = k
    · simp only [alookup, hp, if_true, Option.some_inj] at h
      simp only [ainsert, hp, if_true, asum, List.map_cons, List.sum_cons]
      omega
    · simp only [alookup, hp, if_false] at h
      simp only [ainsert, hp, if_false, asum, List.map_cons, List.sum_cons]
      have ih2 := ih h
      simp only [asum] at ih2
      omega

theorem map_length_le (g : GridMatrix) (src : Cell) {α : Type}
    (l : List (Cell × α)) (hnodup : (akeys l).Nodup)
    (hsub : ∀ k ∈ akeys l, k = src ∨ k ∈ allCells g) :
    l.length ≤ (allCells g).length + 1 := by
  have hss : akeys l ⊆ src :: allCells g := by
    intro k hk
    rcases hsub k hk with h | h
    · rw [h]
      exact List.mem_cons_self _ _
    · exact List.mem_cons_of_mem _ h
  have h1 := (List.Nodup.subperm hnodup hss).length_le
  simpa [akeys] using h1

/-! ## C10: BFS termination -/

theorem bfs_expand_prop (g : GridMatrix) (src current : Cell) (ns : List Cell)
    (frontier : List Cell) (cf : CameFrom)
    (hns : ∀ n ∈ ns, g.in_bounds n = true)
    (hnodup : (akeys cf).Nodup)
    (hsub : ∀ k ∈ akeys cf, k = src ∨ k ∈ allCells g) :
    ((akeys (bfs_expand current ns frontier cf).2).Nodup ∧
      (∀ k ∈ akeys (bfs_expand current ns frontier cf).2,
        k = src ∨ k ∈ allCells g)) ∧
    ((bfs_expand current ns frontier cf).1.length + cf.length =
        frontier.length + (bfs_expand current ns frontier cf).2.length ∧
      cf.length ≤ (bfs_expand current ns frontier cf).2.length) := by
  induction ns generalizing frontier cf with
  | nil => exact ⟨⟨hnodup, hsub⟩, rfl, Nat.le_refl _⟩
  | cons n ns ih =>
    have hns2 : ∀ m ∈ ns, g.in_bounds m = true :=
      fun m hm => hns m (List.mem_cons_of_mem n hm)
    by_cases hn : acontains cf n = true
    · simp only [bfs_expand, hn, if_true]
      exact ih _ _ hns2 hnodup hsub
    · simp only [bfs_expand, hn, Bool.false_eq_true, if_false]
      have hnb : acontains cf n = false := by
        cases hv : acontains cf n
        · rfl
        · exact absurd hv hn
      have hnodup2 := nodup_akeys_ainsert cf n (some current) hnodup
      have hsub2 : ∀ k ∈ akeys (ainsert cf n (some current)),
          k = src ∨ k ∈ allCells g := by
        intro k hk
        rw [akeys_ainsert_of_not_contains cf n (some current) hnb] at hk
        rcases List.mem_append.mp hk with h1 | h2
        · exact hsub k h1
        · simp only [List.mem_singleton] at h2
          subst h2
          exact Or.inr (mem_allCells g k (hns k (List.mem_cons_self _ _)))
      rcases ih (frontier ++ [n]) (ainsert cf n (some current)) hns2 hnodup2 hsub2
        with ⟨hinv, heq, hle⟩
      have hlen : (ainsert cf n (some current)).length = cf.length + 1 :=
        length_ainsert_of_not_contains cf n (some current) hnb
      refine ⟨hinv, ?_, ?_⟩
      · have hl2 : (frontier ++ [n]).length = frontier.length + 1 := by simp
        omega
      · omega

theorem bfs_loop_isSome (g : GridMatrix) (src target : Cell) :
    ∀ (fuel : Nat) (frontier : List Cell) (cf : CameFrom) (pops : List Cell),
      (akeys cf).Nodup → (∀ k ∈ akeys cf, k = src ∨ k ∈ allCells g) →
      frontier.length + ((allCells g).length + 1 - cf.length) < fuel →
      (bfs_loop g target fuel frontier cf pops).isSome = true := by
  intro fuel
  induction fuel with
  | zero =>
    intro frontier cf pops _ _ hm
    omega
  | succ n ih =>
    intro frontier cf pops hnodup hsub hm
    match frontier with
    | [] => simp [bfs_loop]
    | cur :: rest =>
      by_cases ht : cur = target
      · simp [bfs_loop, ht]
      · simp only [bfs_loop, if_neg ht]
        rcases bfs_expand_prop g src cur (g.neighbors cur) rest cf
          (fun m hm2 => in_bounds_of_mem_neighbors g cur m hm2) hnodup hsub
          with ⟨⟨hnodup2, hsub2⟩, heq, hle⟩
        refine ih _ _ _ hnodup2 hsub2 ?_
        have hbound := map_length_le g src (bfs_expand cur (g.neighbors cur) rest cf).2
          hnodup2 hsub2
        simp only [List.length_cons] at hm
        omega

/-! ## C10: A* termination -/

theorem astar_expand_prop (g : GridMatrix) (src target current : Cell)
    (ns : List Cell) (frontier : List Entry) (cf : CameFrom) (csf : CostMap)
    (evts : List QEvent) (s : List Entry × CameFrom × CostMap × List QEvent)
    (h : astar_expand target current ns frontier cf csf evts = some s)
    (hns : ∀ n ∈ ns, g.in_bounds n = true)
    (hnodup : (akeys csf).Nodup)
    (hsub : ∀ k ∈ akeys csf, k = src ∨ k ∈ allCells g)
    (hbound : ∀ p ∈ csf, p.2 ≤ 1001 * csf.length) :
    ((akeys s.2.2.1).Nodup ∧
      (∀ k ∈ akeys s.2.2.1, k = src ∨ k ∈ allCells g) ∧
      (∀ p ∈ s.2.2.1, p.2 ≤ 1001 * s.2.2.1.length) ∧
      csf.length ≤ s.2.2.1.length) ∧
    s.1.length + asum s.2.2.1 +
        ((allCells g).length + 1 - s.2.2.1.length) *
          (1001 * ((allCells g).length + 1) + 2) ≤
      frontier.length + asum csf +
        ((allCells g).length + 1 - csf.length) *
          (1001 * ((allCells g).length + 1) + 2) := by
  induction ns generalizing frontier cf csf evts with
  | nil =>
    simp only [astar_expand, Option.some_inj] at h
    subst h
    exact ⟨⟨hnodup, hsub, hbound, Nat.le_refl _⟩, Nat.le_refl _⟩
  | cons n ns ih =>
    have hns2 : ∀ m ∈ ns, g.in_bounds m = true :=
      fun m hm => hns m (List.mem_cons_of_mem n hm)
    cases hl : alookup csf current with
    | none => simp [astar_expand, hl] at h
    | some c0 =>
      simp only [astar_expand, hl] at h
      have hc0 : c0 ≤ 1001 * csf.length :=
        hbound (current, c0) (alookup_mem csf current c0 hl)
      have hcost : get_cost current n ≤ 1001 := get_cost_le current n
      cases hn : alookup csf n with
      | none =>
        rw [hn] at h
        rw [if_pos rfl] at h
        have hnb : acontains csf n = false := by
          simp [acontains, hn]
        have hnodup2 := nodup_akeys_ainsert csf n (c0 + get_cost current n) hnodup
        have hsub2 : ∀ k ∈ akeys (ainsert csf n (c0 + get_cost current n)),
            k = src ∨ k ∈ allCells g := by
          intro k hk
          rw [akeys_ainsert_of_not_contains csf n _ hnb] at hk
          rcases List.mem_append.mp hk with h1 | h2
          · exact hsub k h1
          · simp only [List.mem_singleton] at h2
            subst h2
            exact Or.inr (mem_allCells g k (hns k (List.mem_cons_self _ _)))
        have hlen2 : (ainsert csf n (c0 + get_cost current n)).length =
            csf.length + 1 := length_ainsert_of_not_contains csf n _ hnb
        have hbound2 : ∀ p ∈ ainsert csf n (c0 + get_cost current n),
            p.2 ≤ 1001 * (ainsert csf n (c0 + get_cost current n)).length := by
          intro p hp
          rw [hlen2]
          rcases mem_ainsert csf n _ p hp with h1 | h2
          · rw [h1]
            simp only
            omega
          · have := hbound p h2
            omega
        rcases ih (frontier ++ [(c0 + get_cost current n + heuristic n target, n)])
          (ainsert cf n (some current)) (ainsert csf n (c0 + get_cost current n))
          (evts ++ [QEvent.push (c0 + get_cost current n + heuristic n target) n])
          h hns2 hnodup2 hsub2 hbound2 with ⟨hinv, hmeas⟩
        refine ⟨⟨hinv.1, hinv.2.1, hinv.2.2.1, ?_⟩, ?_⟩
        · have := hinv.2.2.2
          omega
        · refine Nat.le_trans hmeas ?_
          have hsum2 : asum (ainsert csf n (c0 + get_cost current n)) =
              asum csf + (c0 + get_cost current n) :=
            asum_ainsert_fresh csf n _ hnb
          have hlenN : (ainsert csf n (c0 + get_cost current n)).length ≤
              (allCells g).length + 1 :=
            map_length_le g src _ hnodup2 hsub2
          have hkey : ((allCells g).length + 1 - csf.length) *
              (1001 * ((allCells g).length + 1) + 2) =
              ((allCells g).length + 1 -
                  (ainsert csf n (c0 + get_cost current n)).length) *
                (1001 * ((allCells g).length + 1) + 2) +
                (1001 * ((allCells g).length + 1) + 2) := by
            have h1 : (allCells g).length + 1 - csf.length =
                ((allCells g).length + 1 -
                  (ainsert csf n (c0 + get_cost current n)).length) + 1 := by
              omega
            rw [h1, Nat.add_mul, Nat.one_mul]
          have hfl : (frontier ++
              [(c0 + get_cost current n + heuristic n target, n)]).length =
              frontier.length + 1 := by simp
          have hnewcost : c0 + get_cost current n ≤
              1001 * ((allCells g).length + 1) := by
            have h2 : 1001 * (csf.length + 1) ≤
                1001 * ((allCells g).length + 1) :=
              Nat.mul_le_mul_left 1001 (by omega)
            omega
          omega
      | some old =>
        rw [hn] at h
        by_cases hlt : c0 + get_cost current n < old
        · rw [if_pos (by simpa using hlt)] at h
          have hnc : acontains csf n = true := by
            simp [acontains, hn]
          have hkeys2 : akeys (ainsert csf n (c0 + get_cost current n)) = akeys csf :=
            akeys_ainsert_of_contains csf n _ hnc
          have hnodup2 : (akeys (ainsert csf n (c0 + get_cost current n))).Nodup := by
            rw [hkeys2]
            exact hnodup
          have hsub2 : ∀ k ∈ akeys (ainsert csf n (c0 + get_cost current n)),
              k = src ∨ k ∈ allCells g := by
            rw [hkeys2]
            exact hsub
          have hlen2 : (ainsert csf n (c0 + get_cost current n)).length = csf.length :=
            length_ainsert_of_contains csf n _ hnc
          have hold : old ≤ 1001 * csf.length :=
            hbound (n, old) (alookup_mem csf n old hn)
          have hbound2 : ∀ p ∈ ainsert csf n (c0 + get_cost current n),
              p.2 ≤ 1001 * (ainsert csf n (c0 + get_cost current n)).length := by
            intro p hp
            rw [hlen2]
            rcases mem_ainsert csf n _ p hp with h1 | h2
            · rw [h1]
              simp only
              omega
            · exact hbound p h2
          rcases ih (frontier ++ [(c0 + get_cost current n + heuristic n target, n)])
            (ainsert cf n (some current)) (ainsert csf n (c0 + get_cost current n))
            (evts ++ [QEvent.push (c0 + get_cost current n + heuristic n target) n])
            h hns2 hnodup2 hsub2 hbound2 with ⟨hinv, hmeas⟩
          refine ⟨⟨hinv.1, hinv.2.1, hinv.2.2.1, ?_⟩, ?_⟩
          · have := hinv.2.2.2
            omega
          · refine Nat.le_trans hmeas ?_
            have hsum2 : asum (ainsert csf n (c0 + get_cost current n)) + old =
                asum csf + (c0 + get_cost current n) :=
              asum_ainsert_update csf n _ old hn
            rw [hlen2, List.length_append]
            simp only [List.length_singleton]
            omega
        · rw [if_neg (by simpa using hlt)] at h
          exact ih _ _ _ _ h hns2 hnodup hsub hbound

theorem astar_loop_isSome (g : GridMatrix) (src target : Cell) :
    ∀ (fuel : Nat) (frontier : List Entry) (cf : CameFrom) (csf : CostMap)
      (pops : List Cell) (evts : List QEvent),
      (akeys csf).Nodup → (∀ k ∈ akeys csf, k = src ∨ k ∈ allCells g) →
      (∀ p ∈ csf, p.2 ≤ 1001 * csf.length) →
      frontier.length + asum csf +
          ((allCells g).length + 1 - csf.length) *
            (1001 * ((allCells g).length + 1) + 2) < fuel →
      (astar_loop g target fuel frontier cf csf pops evts).isSome = true := by
  intro fuel
  induction fuel with
  | zero =>
    intro frontier cf csf pops evts _ _ _ hm
    omega
  | succ n ih =>
    intro frontier cf csf pops evts hnodup hsub hbound hm
    cases hp : popMin frontier with
    | none => simp [astar_loop, hp]
    | some pr =>
      obtain ⟨⟨p, cur⟩, rest⟩ := pr
      by_cases ht : cur = target
      · simp [astar_loop, hp, ht]
      · simp only [astar_loop, hp, if_neg ht]
        cases he : astar_expand target cur (g.neighbors cur) rest cf csf
            (evts ++ [QEvent.pop p cur]) with
        | none => simp
        | some s =>
          simp only
          rcases astar_expand_prop g src target cur (g.neighbors cur) rest cf csf
            (evts ++ [QEvent.pop p cur]) s he
            (fun m hm2 => in_bounds_of_mem_neighbors g cur m hm2) hnodup hsub hbound
            with ⟨⟨hnodup2, hsub2, hbound2, _⟩, hmeas⟩
          refine ih _ _ _ _ _ hnodup2 hsub2 hbound2 ?_
          have hflen : frontier.length = rest.length + 1 := by
            have := (popMin_perm frontier (p, cur) rest hp).length_eq
            simpa using this
          omega

/-- C10: for every grid and every source and target, the main loops of
`BfsAlgorithm.solve` and `AStarAlgorithm.solve` terminate: some finite
fuel suffices for the modelled runs to return. -/
theorem C10_loops_terminate (g : GridMatrix) (s t : Cell) :
    (∃ n, (bfs_run g s t n).isSome = true) ∧
      (∃ n, (astar_run g s t n).isSome = true) := by
  constructor
  · refine ⟨(allCells g).length + 3, ?_⟩
    unfold bfs_run
    apply bfs_loop_isSome g s t
    · simp [akeys]
    · intro k hk
      simp only [akeys, List.map_cons, List.map_nil, List.mem_singleton] at hk
      exact Or.inl hk
    · simp only [List.length_cons, List.length_nil, List.length_singleton]
      omega
  · refine ⟨1 + asum [(s, 0)] +
      ((allCells g).length + 1 - 1) * (1001 * ((allCells g).length + 1) + 2) + 1, ?_⟩
    unfold astar_run
    apply astar_loop_isSome g s t
    · simp [akeys]
    · intro k hk
      simp only [akeys, List.map_cons, List.map_nil, List.mem_singleton] at hk
      exact Or.inl hk
    · intro p hp
      simp only [List.mem_singleton] at hp
      rw [hp]
      simp
    · simp only [List.length_singleton]
      omega

/-! ## C1: the maze generator leaves the start chamber occupied -/

/-- C1: evaluating `DfsMazeGenerator.generate` at rows = columns = 3
with random draws `[0, 0, 1, 0]` (start chamber `(0, 0)`, first branch
choice index 1): the run completes, the start chamber `(0, 0)` stays
occupied (only discovered neighbors are ever cleared), and the free
cells split into two components — `(2, 0)` and `(0, 2)` are both free
chambers, yet `(0, 2)` is not reachable from `(2, 0)` through free
cells.  The free cells at even coordinates therefore form neither a
single connected component nor one reachable from the start chamber. -/
theorem C1_maze_start_occupied_disconnected :
    DfsMazeGenerator.generate 3 3 [0, 0, 1, 0] 20 =
        some ⟨3, 3, [[true, false, false], [false, true, false],
          [false, true, false]]⟩ ∧
      (DfsMazeGenerator.generate 3 3 [0, 0, 1, 0] 20).map (fun m =>
          (m.get_cell (0, 0), m.get_cell (2, 0), m.get_cell (0, 2),
            decide (((0 : Int), (2 : Int)) ∈ free_reach m 20 [(2, 0)]),
            decide (((2 : Int), (0 : Int)) ∈ free_reach m 20 [(2, 0)]))) =
        some (true, false, false, false, true) := by
  constructor
  · decide
  · decide

end Labyrinth
